import Mathlib

/-!
# Formal model of `dbscan.py`

A shallow embedding of the DBSCAN clustering engine from `src/dbscan.py`.
Points are tuples `(<string id>, <float x>, <float y>)`; floating-point
coordinates are modelled by rationals.  The Python `int` parameter `minPts`
is modelled by `ℤ` (it may be non-positive), the `float` parameter `eps`
by `ℚ`.  The global class counter `Cluster.cid` is modelled by an explicit
initial-counter argument threaded through `run`.
-/

namespace DBSCANModel

/-- A data point `(<string id>, <float x>, <float y>)`, as in `dbscan.py`. -/
abbrev Point := String × ℚ × ℚ

/-- The query `DBSCAN.__regionQuery(pt)`: the list comprehension
`[p for p in D if (p[1]-pt[1])**2 + (p[2]-pt[2])**2 <= eps]`,
where `eps` is the already-squared field `self.eps`. -/
def regionQuery (D : List Point) (eps : ℚ) (pt : Point) : List Point :=
  D.filter fun p => decide ((p.2.1 - pt.2.1) ^ 2 + (p.2.2 - pt.2.2) ^ 2 ≤ eps)

/-- The append loop `for n in NewNeighborhoodPts: if n not in NeighborhoodPts:
appendNeighborhoodPts(n)` from `DBSCAN.__expandCluster`: each element of `new`
is appended to `w` unless it is already present (checked against the list as
grown so far). -/
def appendNew (w : List Point) (new : List Point) : List Point :=
  new.foldl (fun acc n => if n ∈ acc then acc else acc ++ [n]) w

/-- The membership-absorption loop of `DBSCAN.__expandCluster`:
`for cluster in Clusters: if p not in cluster.pts: if p not in C.pts:
C.addPoint(p); break`.  `clusters` is the list of the point lists of all
clusters created so far (the current cluster `C` is its last element), and
the function returns the updated point list of `C`. -/
def absorbLoop (clusters : List (List Point)) (Cpts : List Point) (p : Point) :
    List Point :=
  match clusters with
  | [] => Cpts
  | k :: rest =>
    if p ∈ k then absorbLoop rest Cpts p
    else if p ∈ Cpts then absorbLoop rest Cpts p
    else Cpts ++ [p]

/-- Number of distinct point values of `D` that do not occur in `w`;
termination measure component for the expansion loop. -/
def unseen (D w : List Point) : Nat :=
  (D.dedup.filter fun x => decide (x ∉ w)).length

/-- The worklist loop of `DBSCAN.__expandCluster` (`for p in NeighborhoodPts`),
with the Python append-during-iteration semantics made explicit through an
index cursor `i` into the growing worklist `w`.  `prev` holds the point lists
of the clusters created before the current one, `Cpts` the point list of the
current cluster `C`.  Returns the final worklist, visited list and point list
of `C`. -/
def expandLoop (D : List Point) (eps : ℚ) (minPts : ℤ)
    (prev : List (List Point)) (w : List Point) (i : Nat)
    (visited Cpts : List Point) : List Point × List Point × List Point :=
  if h : i < w.length then
    if w[i] ∈ visited then
      expandLoop D eps minPts prev w (i + 1) visited
        (absorbLoop (prev ++ [Cpts]) Cpts (w[i]))
    else if minPts ≤ ((regionQuery D eps (w[i])).length : ℤ) then
      expandLoop D eps minPts prev (appendNew w (regionQuery D eps (w[i])))
        (i + 1) (visited ++ [w[i]])
        (absorbLoop (prev ++ [Cpts]) Cpts (w[i]))
    else
      expandLoop D eps minPts prev w (i + 1) (visited ++ [w[i]])
        (absorbLoop (prev ++ [Cpts]) Cpts (w[i]))
  else (w, visited, Cpts)
termination_by 2 * unseen D w + (w.length - i)
decreasing_by
  · omega
  · have hmeas : ∀ new : List Point, (∀ n ∈ new, n ∈ D) → ∀ w' : List Point,
        2 * unseen D (appendNew w' new) + (appendNew w' new).length ≤
          2 * unseen D w' + w'.length := by
      intro new
      induction new with
      | nil => intro _ w'; simp [appendNew]
      | cons n rest ih =>
        intro hnew w'
        have hn : n ∈ D := hnew n (List.mem_cons_self n rest)
        have hrest : ∀ x ∈ rest, x ∈ D := fun x hx => hnew x (List.mem_cons_of_mem _ hx)
        simp only [appendNew, List.foldl_cons]
        by_cases hmem : n ∈ w'
        · simp only [if_pos hmem]; exact ih hrest w'
        · simp only [if_neg hmem]
          refine le_trans (ih hrest (w' ++ [n])) ?_
          have hlen : (w' ++ [n]).length = w'.length + 1 := by simp
          have hun : unseen D (w' ++ [n]) + 1 ≤ unseen D w' := by
            unfold unseen
            have hsub : List.Sublist
                (D.dedup.filter fun x => decide (x ∉ w' ++ [n]))
                (D.dedup.filter fun x => decide (x ∉ w')) := by
              apply List.monotone_filter_right
              intro a ha
              simp only [decide_eq_true_eq, List.mem_append, List.mem_singleton] at *
              exact fun hc => ha (Or.inl hc)
            have hninfil : n ∈ D.dedup.filter fun x => decide (x ∉ w') := by
              simp only [List.mem_filter, List.mem_dedup, decide_eq_true_eq]
              exact ⟨hn, hmem⟩
            have hnnot : n ∉ D.dedup.filter fun x => decide (x ∉ w' ++ [n]) := by
              simp [List.mem_filter]
            by_contra hcon
            push_neg at hcon
            have heq := hsub.eq_of_length_le (by omega)
            rw [heq] at hnnot
            exact hnnot hninfil
          omega
    have hkey := hmeas (regionQuery D eps (w[i]))
      (fun n hn => List.mem_of_mem_filter hn) w
    have hgrow : ∀ new : List Point, ∀ w' : List Point,
        w'.length ≤ (appendNew w' new).length := by
      intro new
      induction new with
      | nil => intro w'; simp [appendNew]
      | cons n rest ih =>
        intro w'
        simp only [appendNew, List.foldl_cons]
        by_cases hn : n ∈ w'
        · simp only [if_pos hn]; exact ih w'
        · simp only [if_neg hn]
          refine le_trans ?_ (ih (w' ++ [n]))
          simp
    have hlen := hgrow (regionQuery D eps (w[i])) w
    omega
  · omega

/-- A `Cluster` object: a unique id `cid` and its list of member points. -/
structure Cluster where
  cid : Nat
  pts : List Point
deriving DecidableEq, Repr

/-- The mutable state of a `DBSCAN` object during `run()`: the cluster list
`self.Clusters`, the noise list `self.NOISE`, the visited list `self.visited`,
and the value of the global counter `Cluster.cid`. -/
structure DBState where
  Clusters : List Cluster
  NOISE : List Point
  visited : List Point
  nextCid : Nat
deriving DecidableEq, Repr

/-- One pass of the `for pt in self.D` loop of `DBSCAN.run()`, processing the
remaining points `rest`.  An unvisited point is visited; if its neighborhood
is smaller than `minPts` it is appended to the noise list, otherwise a new
cluster is created (with the next id from the global counter) and expanded by
`expandLoop`, starting from the cluster point list `[pt]`
(i.e. `C.addPoint(pt)`). -/
def runLoop (D : List Point) (eps : ℚ) (minPts : ℤ) :
    List Point → DBState → DBState
  | [], st => st
  | pt :: rest, st =>
    if pt ∈ st.visited then runLoop D eps minPts rest st
    else
      if ((regionQuery D eps pt).length : ℤ) < minPts then
        runLoop D eps minPts rest
          { st with visited := st.visited ++ [pt], NOISE := st.NOISE ++ [pt] }
      else
        let r := expandLoop D eps minPts (st.Clusters.map Cluster.pts)
          (regionQuery D eps pt) 0 (st.visited ++ [pt]) [pt]
        runLoop D eps minPts rest
          { st with visited := r.2.1,
                    Clusters := st.Clusters ++ [⟨st.nextCid, r.2.2⟩],
                    nextCid := st.nextCid + 1 }

/-- Construction `DBSCAN(D, eps, minPts)` followed by `run()`: the constructor squares
`eps` once (`self.eps = eps*eps`) and `run()` scans the dataset.  `cid0` is
the value of the process-wide counter `Cluster.cid` when `run` starts. -/
def run (D : List Point) (eps : ℚ) (minPts : ℤ) (cid0 : Nat) : DBState :=
  runLoop D (eps * eps) minPts D
    { Clusters := [], NOISE := [], visited := [], nextCid := cid0 }

/-- A point is a core point when its neighborhood (for the already-squared
threshold `eps`) has at least `minPts` members. -/
def isCore (D : List Point) (eps : ℚ) (minPts : ℤ) (p : Point) : Prop :=
  minPts ≤ ((regionQuery D eps p).length : ℤ)

/-- Density-reachability from a seed `s`, mirroring how the expansion worklist
grows: everything in `s`'s neighborhood is reachable, and the whole
neighborhood of a reachable core point is reachable. -/
inductive InClosure (D : List Point) (eps : ℚ) (minPts : ℤ) (s : Point) :
    Point → Prop
  | base {p : Point} : p ∈ regionQuery D eps s → InClosure D eps minPts s p
  | step {q p : Point} : InClosure D eps minPts s q → isCore D eps minPts q →
      p ∈ regionQuery D eps q → InClosure D eps minPts s p

/-- Semantic characterisation of the points that `run` classifies as noise:
`p` is not a core point, and no core point `s` occurring strictly before the
first occurrence of `p` in the dataset reaches `p`
(`A` ranges over the prefixes preceding an occurrence of `p`, and the
requirement `p ∉ A` singles out the first occurrence). -/
def noiseP (D : List Point) (eps : ℚ) (minPts : ℤ) (p : Point) : Prop :=
  ¬isCore D eps minPts p ∧
    ∀ A B : List Point, D = A ++ p :: B → p ∉ A →
      ∀ s ∈ A, isCore D eps minPts s → ¬InClosure D eps minPts s p

/-- Invariant of the outer `run()` loop, relating the already-processed
dataset portion `A` to the visited list: every processed point is visited;
every visited point is either a processed point or lies in the closure of
some processed core point; and the whole neighborhood of a visited core
point is visited. -/
def Inv (D : List Point) (eps : ℚ) (minPts : ℤ) (A visited : List Point) :
    Prop :=
  (∀ x ∈ A, x ∈ visited) ∧
  (∀ v ∈ visited, v ∈ A ∨ ∃ s ∈ A, isCore D eps minPts s ∧
    InClosure D eps minPts s v) ∧
  (∀ q ∈ visited, isCore D eps minPts q →
    ∀ x ∈ regionQuery D eps q, x ∈ visited)

/-- Modelled from the spec: the "Manhattan distance" neighborhood query that
the reference commentary (incorrectly) claims the code performs — absolute
coordinate differences summed and compared against the threshold. -/
def manhattanQuery (D : List Point) (eps : ℚ) (pt : Point) : List Point :=
  D.filter fun p => decide (|p.2.1 - pt.2.1| + |p.2.2 - pt.2.2| ≤ eps)

/-- Example dataset on a line (`eps = 1`, `minPts = 3`): the first point
`("q", 1, 0)` is classified as noise (its neighborhood has size 2), but the
expansion of the cluster seeded at `("c", 2, 0)` later absorbs it, so `"q"`
ends up in both the noise list and a cluster. -/
def noiseClusterEx : List Point :=
  [("q", 1, 0), ("c", 2, 0), ("a", 3, 0), ("b", 4, 0)]

/-- Example dataset for the distance-formula comparison: one point at squared
Euclidean distance `4` but Manhattan distance `2` from the query point
`("o", 1, 2)`, so with threshold `2` the two formulas disagree. -/
def manEx : List Point := [("m", 3, 2)]

/-- Query point for the distance-formula comparison. -/
def originPt : Point := ("o", 1, 2)

/-! ## Basic lemmas about the absorption and append loops -/

theorem absorbLoop_last (cls : List (List Point)) (Cpts : List Point) (p : Point) :
    absorbLoop (cls ++ [Cpts]) Cpts p = if p ∈ Cpts then Cpts else Cpts ++ [p] := by
  induction cls with
  | nil =>
    by_cases hp : p ∈ Cpts
    · simp [absorbLoop, hp]
    · simp [absorbLoop, hp]
  | cons k rest ih =>
    by_cases hk : p ∈ k
    · simpa [absorbLoop, hk] using ih
    · by_cases hp : p ∈ Cpts
      · simpa [absorbLoop, hk, hp] using ih
      · simp [absorbLoop, hk, hp]

theorem mem_absorbLoop_self (cls : List (List Point)) (Cpts : List Point)
    (p : Point) : p ∈ absorbLoop (cls ++ [Cpts]) Cpts p := by
  rw [absorbLoop_last]
  by_cases hp : p ∈ Cpts
  · simp only [if_pos hp]; exact hp
  · simp [hp]

theorem absorbLoop_mono {Cpts : List Point} {x : Point} (hx : x ∈ Cpts)
    (cls : List (List Point)) (p : Point) :
    x ∈ absorbLoop (cls ++ [Cpts]) Cpts p := by
  rw [absorbLoop_last]
  by_cases hp : p ∈ Cpts <;> simp [hp, hx]

theorem mem_absorbLoop_elim {cls : List (List Point)} {Cpts : List Point}
    {x p : Point} (hx : x ∈ absorbLoop (cls ++ [Cpts]) Cpts p) :
    x ∈ Cpts ∨ x = p := by
  rw [absorbLoop_last] at hx
  by_cases hp : p ∈ Cpts
  · rw [if_pos hp] at hx; exact Or.inl hx
  · rw [if_neg hp] at hx
    rcases List.mem_append.1 hx with hx | hx
    · exact Or.inl hx
    · exact Or.inr (List.mem_singleton.1 hx)

theorem absorbLoop_nodup {Cpts : List Point} (hnd : Cpts.Nodup)
    (cls : List (List Point)) (p : Point) :
    (absorbLoop (cls ++ [Cpts]) Cpts p).Nodup := by
  rw [absorbLoop_last]
  by_cases hp : p ∈ Cpts
  · simpa [hp] using hnd
  · rw [if_neg hp]
    simpa [List.nodup_append] using ⟨hnd, hp⟩

theorem absorbLoop_exists_append (cls : List (List Point)) (Cpts : List Point)
    (p : Point) : ∃ t, absorbLoop (cls ++ [Cpts]) Cpts p = Cpts ++ t := by
  rw [absorbLoop_last]
  by_cases hp : p ∈ Cpts
  · exact ⟨[], by simp [hp]⟩
  · exact ⟨[p], by simp [hp]⟩

theorem appendNew_sub_mem {w new : List Point} {x : Point} (hx : x ∈ w) :
    x ∈ appendNew w new := by
  induction new generalizing w with
  | nil => exact hx
  | cons n rest ih =>
    simp only [appendNew, List.foldl_cons] at *
    by_cases hn : n ∈ w
    · simp only [if_pos hn]; exact ih hx
    · simp only [if_neg hn]; exact ih (List.mem_append_left _ hx)

theorem appendNew_mem_new {w new : List Point} {x : Point} (hx : x ∈ new) :
    x ∈ appendNew w new := by
  induction new generalizing w with
  | nil => cases hx
  | cons n rest ih =>
    simp only [appendNew, List.foldl_cons] at *
    rcases List.mem_cons.1 hx with rfl | hx
    · by_cases hn : x ∈ w
      · simp only [if_pos hn]; exact appendNew_sub_mem hn
      · simp only [if_neg hn]
        exact appendNew_sub_mem (List.mem_append_right _ (List.mem_singleton.2 rfl))
    · by_cases hn : n ∈ w
      · simp only [if_pos hn]; exact ih hx
      · simp only [if_neg hn]; exact ih hx

theorem mem_appendNew_elim {w new : List Point} {x : Point}
    (hx : x ∈ appendNew w new) : x ∈ w ∨ x ∈ new := by
  induction new generalizing w with
  | nil => exact Or.inl hx
  | cons n rest ih =>
    simp only [appendNew, List.foldl_cons] at hx
    by_cases hn : n ∈ w
    · rw [if_pos hn] at hx
      rcases ih hx with hx | hx
      · exact Or.inl hx
      · exact Or.inr (List.mem_cons_of_mem _ hx)
    · rw [if_neg hn] at hx
      rcases ih hx with hx | hx
      · rcases List.mem_append.1 hx with hx | hx
        · exact Or.inl hx
        · exact Or.inr (List.mem_singleton.1 hx ▸ List.mem_cons_self _ _)
      · exact Or.inr (List.mem_cons_of_mem _ hx)

theorem appendNew_exists_append (w new : List Point) :
    ∃ t, appendNew w new = w ++ t := by
  induction new generalizing w with
  | nil => exact ⟨[], by simp [appendNew]⟩
  | cons n rest ih =>
    simp only [appendNew, List.foldl_cons]
    by_cases hn : n ∈ w
    · simpa [hn] using ih w
    · rw [if_neg hn]
      obtain ⟨t, ht⟩ := ih (w ++ [n])
      exact ⟨n :: t, by simpa using ht⟩

theorem appendNew_subperm {w new D : List Point} (hw : List.Subperm w D)
    (hnew : ∀ n ∈ new, n ∈ D) : List.Subperm (appendNew w new) D := by
  induction new generalizing w with
  | nil => exact hw
  | cons n rest ih =>
    have hn : n ∈ D := hnew n (List.mem_cons_self n rest)
    have hrest : ∀ x ∈ rest, x ∈ D := fun x hx => hnew x (List.mem_cons_of_mem _ hx)
    simp only [appendNew, List.foldl_cons]
    by_cases hmem : n ∈ w
    · rw [if_pos hmem]; exact ih hw hrest
    · rw [if_neg hmem]
      refine ih ?_ hrest
      rw [← Multiset.coe_le] at hw ⊢
      rw [Multiset.le_iff_count] at hw ⊢
      intro a
      have hcnt := hw a
      rw [← Multiset.coe_add, Multiset.count_add]
      by_cases ha : a = n
      · subst ha
        have h0 : Multiset.count a (w : Multiset Point) = 0 :=
          Multiset.count_eq_zero.2 (by simpa using hmem)
        have h1 : 1 ≤ Multiset.count a (D : Multiset Point) :=
          Multiset.one_le_count_iff_mem.2 (by simpa using hn)
        have h2 : Multiset.count a (([a] : List Point) : Multiset Point) = 1 := by
          simp
        omega
      · have h2 : Multiset.count a (([n] : List Point) : Multiset Point) = 0 := by
          simp [Multiset.coe_singleton, Multiset.count_singleton, ha]
        omega

/-! ## Invariants of the expansion loop -/

theorem expandLoop_grow (D : List Point) (eps : ℚ) (m : ℤ)
    (prev : List (List Point)) : ∀ w i visited Cpts,
    (∃ tw, (expandLoop D eps m prev w i visited Cpts).1 = w ++ tw) ∧
    (∃ tv, (expandLoop D eps m prev w i visited Cpts).2.1 = visited ++ tv ∧
      ∀ v ∈ tv, v ∈ (expandLoop D eps m prev w i visited Cpts).1) ∧
    (∃ tc, (expandLoop D eps m prev w i visited Cpts).2.2 = Cpts ++ tc) := by
  intro w i visited Cpts
  induction w, i, visited, Cpts using expandLoop.induct D eps m prev with
  | case1 w i visited Cpts h hp ih =>
    rw [expandLoop]
    simp only [dif_pos h, if_pos hp]
    obtain ⟨hw, hv, hc⟩ := ih
    obtain ⟨tc, htc⟩ := hc
    refine ⟨hw, hv, ?_⟩
    obtain ⟨tb, htb⟩ := absorbLoop_exists_append prev Cpts (w[i])
    exact ⟨tb ++ tc, by rw [htc, htb, List.append_assoc]⟩
  | case2 w i visited Cpts h hp hcore ih =>
    rw [expandLoop]
    simp only [dif_pos h, if_neg hp, if_pos hcore]
    obtain ⟨hw, hv, hc⟩ := ih
    obtain ⟨tw, htw⟩ := hw
    obtain ⟨ta, hta⟩ := appendNew_exists_append w (regionQuery D eps (w[i]))
    constructor
    · exact ⟨ta ++ tw, by rw [htw, hta, List.append_assoc]⟩
    constructor
    · obtain ⟨tv, htv, hmem⟩ := hv
      refine ⟨w[i] :: tv, by rw [htv]; simp, ?_⟩
      intro v hvmem
      rcases List.mem_cons.1 hvmem with rfl | hvmem
      · rw [htw]
        exact List.mem_append_left _ (appendNew_sub_mem (List.getElem_mem h))
      · exact hmem v hvmem
    · obtain ⟨tc, htc⟩ := hc
      obtain ⟨tb, htb⟩ := absorbLoop_exists_append prev Cpts (w[i])
      exact ⟨tb ++ tc, by rw [htc, htb, List.append_assoc]⟩
  | case3 w i visited Cpts h hp hcore ih =>
    rw [expandLoop]
    simp only [dif_pos h, if_neg hp, if_neg hcore]
    obtain ⟨hw, hv, hc⟩ := ih
    refine ⟨hw, ?_, ?_⟩
    · obtain ⟨tv, htv, hmem⟩ := hv
      refine ⟨w[i] :: tv, by rw [htv]; simp, ?_⟩
      intro v hvmem
      rcases List.mem_cons.1 hvmem with rfl | hvmem
      · obtain ⟨tw, htw⟩ := hw
        rw [htw]
        exact List.mem_append_left _ (List.getElem_mem h)
      · exact hmem v hvmem
    · obtain ⟨tc, htc⟩ := hc
      obtain ⟨tb, htb⟩ := absorbLoop_exists_append prev Cpts (w[i])
      exact ⟨tb ++ tc, by rw [htc, htb, List.append_assoc]⟩
  | case4 w i visited Cpts h =>
    rw [expandLoop]
    simp only [dif_neg h]
    exact ⟨⟨[], by simp⟩, ⟨[], by simp⟩, ⟨[], by simp⟩⟩

theorem expandLoop_w_subset (D : List Point) (eps : ℚ) (m : ℤ)
    (prev : List (List Point)) : ∀ w i visited Cpts,
    (∀ x ∈ w, x ∈ D) →
    ∀ x ∈ (expandLoop D eps m prev w i visited Cpts).1, x ∈ D := by
  intro w i visited Cpts
  induction w, i, visited, Cpts using expandLoop.induct D eps m prev with
  | case1 w i visited Cpts h hp ih =>
    intro hw
    rw [expandLoop]
    simp only [dif_pos h, if_pos hp]
    exact ih hw
  | case2 w i visited Cpts h hp hcore ih =>
    intro hw
    rw [expandLoop]
    simp only [dif_pos h, if_neg hp, if_pos hcore]
    refine ih ?_
    intro x hx
    rcases mem_appendNew_elim hx with hx | hx
    · exact hw x hx
    · exact List.mem_of_mem_filter hx
  | case3 w i visited Cpts h hp hcore ih =>
    intro hw
    rw [expandLoop]
    simp only [dif_pos h, if_neg hp, if_neg hcore]
    exact ih hw
  | case4 w i visited Cpts h =>
    intro hw
    rw [expandLoop]
    simp only [dif_neg h]
    exact hw

theorem expandLoop_w_subperm (D : List Point) (eps : ℚ) (m : ℤ)
    (prev : List (List Point)) : ∀ w i visited Cpts,
    List.Subperm w D →
    List.Subperm (expandLoop D eps m prev w i visited Cpts).1 D := by
  intro w i visited Cpts
  induction w, i, visited, Cpts using expandLoop.induct D eps m prev with
  | case1 w i visited Cpts h hp ih =>
    intro hw
    rw [expandLoop]
    simp only [dif_pos h, if_pos hp]
    exact ih hw
  | case2 w i visited Cpts h hp hcore ih =>
    intro hw
    rw [expandLoop]
    simp only [dif_pos h, if_neg hp, if_pos hcore]
    exact ih (appendNew_subperm hw (fun n hn => List.mem_of_mem_filter hn))
  | case3 w i visited Cpts h hp hcore ih =>
    intro hw
    rw [expandLoop]
    simp only [dif_pos h, if_neg hp, if_neg hcore]
    exact ih hw
  | case4 w i visited Cpts h =>
    intro hw
    rw [expandLoop]
    simp only [dif_neg h]
    exact hw

theorem expandLoop_visited_nodup (D : List Point) (eps : ℚ) (m : ℤ)
    (prev : List (List Point)) : ∀ w i visited Cpts,
    visited.Nodup →
    (expandLoop D eps m prev w i visited Cpts).2.1.Nodup := by
  intro w i visited Cpts
  induction w, i, visited, Cpts using expandLoop.induct D eps m prev with
  | case1 w i visited Cpts h hp ih =>
    intro hnd
    rw [expandLoop]
    simp only [dif_pos h, if_pos hp]
    exact ih hnd
  | case2 w i visited Cpts h hp hcore ih =>
    intro hnd
    rw [expandLoop]
    simp only [dif_pos h, if_neg hp, if_pos hcore]
    exact ih (by simp [List.nodup_append, hnd, hp])
  | case3 w i visited Cpts h hp hcore ih =>
    intro hnd
    rw [expandLoop]
    simp only [dif_pos h, if_neg hp, if_neg hcore]
    exact ih (by simp [List.nodup_append, hnd, hp])
  | case4 w i visited Cpts h =>
    intro hnd
    rw [expandLoop]
    simp only [dif_neg h]
    exact hnd

theorem expandLoop_C_nodup (D : List Point) (eps : ℚ) (m : ℤ)
    (prev : List (List Point)) : ∀ w i visited Cpts,
    Cpts.Nodup →
    (expandLoop D eps m prev w i visited Cpts).2.2.Nodup := by
  intro w i visited Cpts
  induction w, i, visited, Cpts using expandLoop.induct D eps m prev with
  | case1 w i visited Cpts h hp ih =>
    intro hnd
    rw [expandLoop]
    simp only [dif_pos h, if_pos hp]
    exact ih (absorbLoop_nodup hnd prev (w[i]))
  | case2 w i visited Cpts h hp hcore ih =>
    intro hnd
    rw [expandLoop]
    simp only [dif_pos h, if_neg hp, if_pos hcore]
    exact ih (absorbLoop_nodup hnd prev (w[i]))
  | case3 w i visited Cpts h hp hcore ih =>
    intro hnd
    rw [expandLoop]
    simp only [dif_pos h, if_neg hp, if_neg hcore]
    exact ih (absorbLoop_nodup hnd prev (w[i]))
  | case4 w i visited Cpts h =>
    intro hnd
    rw [expandLoop]
    simp only [dif_neg h]
    exact hnd

theorem expandLoop_w_mem_C (D : List Point) (eps : ℚ) (m : ℤ)
    (prev : List (List Point)) : ∀ w i visited Cpts,
    (∀ x ∈ w.take i, x ∈ Cpts) →
    ∀ x ∈ (expandLoop D eps m prev w i visited Cpts).1,
      x ∈ (expandLoop D eps m prev w i visited Cpts).2.2 := by
  intro w i visited Cpts
  induction w, i, visited, Cpts using expandLoop.induct D eps m prev with
  | case1 w i visited Cpts h hp ih =>
    intro hpre
    rw [expandLoop]
    simp only [dif_pos h, if_pos hp]
    refine ih ?_
    intro x hx
    rw [← List.take_concat_get' w i h] at hx
    rcases List.mem_append.1 hx with hx | hx
    · exact absorbLoop_mono (hpre x hx) prev (w[i])
    · rw [List.mem_singleton.1 hx]
      exact mem_absorbLoop_self prev Cpts (w[i])
  | case2 w i visited Cpts h hp hcore ih =>
    intro hpre
    rw [expandLoop]
    simp only [dif_pos h, if_neg hp, if_pos hcore]
    refine ih ?_
    intro x hx
    obtain ⟨ta, hta⟩ := appendNew_exists_append w (regionQuery D eps (w[i]))
    rw [hta, List.take_append_of_le_length (by omega)] at hx
    rw [← List.take_concat_get' w i h] at hx
    rcases List.mem_append.1 hx with hx | hx
    · exact absorbLoop_mono (hpre x hx) prev (w[i])
    · rw [List.mem_singleton.1 hx]
      exact mem_absorbLoop_self prev Cpts (w[i])
  | case3 w i visited Cpts h hp hcore ih =>
    intro hpre
    rw [expandLoop]
    simp only [dif_pos h, if_neg hp, if_neg hcore]
    refine ih ?_
    intro x hx
    rw [← List.take_concat_get' w i h] at hx
    rcases List.mem_append.1 hx with hx | hx
    · exact absorbLoop_mono (hpre x hx) prev (w[i])
    · rw [List.mem_singleton.1 hx]
      exact mem_absorbLoop_self prev Cpts (w[i])
  | case4 w i visited Cpts h =>
    intro hpre
    rw [expandLoop]
    simp only [dif_neg h]
    intro x hx
    exact hpre x (by rwa [List.take_of_length_le (by omega)])

theorem expandLoop_closure (D : List Point) (eps : ℚ) (m : ℤ)
    (prev : List (List Point)) (s : Point) : ∀ w i visited Cpts,
    (∀ x ∈ w, InClosure D eps m s x) →
    (∀ x ∈ (expandLoop D eps m prev w i visited Cpts).1,
      InClosure D eps m s x) ∧
    (∀ v ∈ (expandLoop D eps m prev w i visited Cpts).2.1,
      v ∈ visited ∨ InClosure D eps m s v) := by
  intro w i visited Cpts
  induction w, i, visited, Cpts using expandLoop.induct D eps m prev with
  | case1 w i visited Cpts h hp ih =>
    intro hw
    rw [expandLoop]
    simp only [dif_pos h, if_pos hp]
    exact ih hw
  | case2 w i visited Cpts h hp hcore ih =>
    intro hw
    rw [expandLoop]
    simp only [dif_pos h, if_neg hp, if_pos hcore]
    have hw' : ∀ x ∈ appendNew w (regionQuery D eps (w[i])), InClosure D eps m s x := by
      intro x hx
      rcases mem_appendNew_elim hx with hx | hx
      · exact hw x hx
      · exact InClosure.step (hw _ (List.getElem_mem h)) hcore hx
    obtain ⟨h1, h2⟩ := ih hw'
    refine ⟨h1, ?_⟩
    intro v hv
    rcases h2 v hv with hv | hv
    · rcases List.mem_append.1 hv with hv | hv
      · exact Or.inl hv
      · exact Or.inr (List.mem_singleton.1 hv ▸ hw _ (List.getElem_mem h))
    · exact Or.inr hv
  | case3 w i visited Cpts h hp hcore ih =>
    intro hw
    rw [expandLoop]
    simp only [dif_pos h, if_neg hp, if_neg hcore]
    obtain ⟨h1, h2⟩ := ih hw
    refine ⟨h1, ?_⟩
    intro v hv
    rcases h2 v hv with hv | hv
    · rcases List.mem_append.1 hv with hv | hv
      · exact Or.inl hv
      · exact Or.inr (List.mem_singleton.1 hv ▸ hw _ (List.getElem_mem h))
    · exact Or.inr hv
  | case4 w i visited Cpts h =>
    intro hw
    rw [expandLoop]
    simp only [dif_neg h]
    exact ⟨hw, fun v hv => Or.inl hv⟩

theorem expandLoop_complete (D : List Point) (eps : ℚ) (m : ℤ)
    (prev : List (List Point)) : ∀ w i visited Cpts,
    (∀ x ∈ w.take i, x ∈ visited) →
    (∀ q ∈ visited, isCore D eps m q →
      ∀ x ∈ regionQuery D eps q, x ∈ visited ∨ x ∈ w) →
    (∀ x ∈ (expandLoop D eps m prev w i visited Cpts).1,
      x ∈ (expandLoop D eps m prev w i visited Cpts).2.1) ∧
    (∀ q ∈ (expandLoop D eps m prev w i visited Cpts).2.1,
      isCore D eps m q → ∀ x ∈ regionQuery D eps q,
        x ∈ (expandLoop D eps m prev w i visited Cpts).2.1) := by
  intro w i visited Cpts
  induction w, i, visited, Cpts using expandLoop.induct D eps m prev with
  | case1 w i visited Cpts h hp ih =>
    intro htake hq
    rw [expandLoop]
    simp only [dif_pos h, if_pos hp]
    refine ih ?_ hq
    intro x hx
    rw [← List.take_concat_get' w i h] at hx
    rcases List.mem_append.1 hx with hx | hx
    · exact htake x hx
    · exact List.mem_singleton.1 hx ▸ hp
  | case2 w i visited Cpts h hp hcore ih =>
    intro htake hq
    rw [expandLoop]
    simp only [dif_pos h, if_neg hp, if_pos hcore]
    refine ih ?_ ?_
    · intro x hx
      obtain ⟨ta, hta⟩ := appendNew_exists_append w (regionQuery D eps (w[i]))
      rw [hta, List.take_append_of_le_length (by omega)] at hx
      rw [← List.take_concat_get' w i h] at hx
      rcases List.mem_append.1 hx with hx | hx
      · exact List.mem_append_left _ (htake x hx)
      · exact List.mem_append_right _ hx
    · intro q hqv hqc x hx
      rcases List.mem_append.1 hqv with hqv | hqv
      · rcases hq q hqv hqc x hx with hx' | hx'
        · exact Or.inl (List.mem_append_left _ hx')
        · exact Or.inr (appendNew_sub_mem hx')
      · have hqi : q = w[i] := List.mem_singleton.1 hqv
        subst hqi
        exact Or.inr (appendNew_mem_new hx)
  | case3 w i visited Cpts h hp hcore ih =>
    intro htake hq
    rw [expandLoop]
    simp only [dif_pos h, if_neg hp, if_neg hcore]
    refine ih ?_ ?_
    · intro x hx
      rw [← List.take_concat_get' w i h] at hx
      rcases List.mem_append.1 hx with hx | hx
      · exact List.mem_append_left _ (htake x hx)
      · exact List.mem_append_right _ hx
    · intro q hqv hqc x hx
      rcases List.mem_append.1 hqv with hqv | hqv
      · rcases hq q hqv hqc x hx with hx' | hx'
        · exact Or.inl (List.mem_append_left _ hx')
        · exact Or.inr hx'
      · have hqi : q = w[i] := List.mem_singleton.1 hqv
        subst hqi
        exact absurd hqc hcore
  | case4 w i visited Cpts h =>
    intro htake hq
    rw [expandLoop]
    simp only [dif_neg h]
    have hwv : ∀ x ∈ w, x ∈ visited := by
      intro x hx
      exact htake x (by rwa [List.take_of_length_le (by omega)])
    refine ⟨hwv, ?_⟩
    intro q hqv hqc x hx
    rcases hq q hqv hqc x hx with hx' | hx'
    · exact hx'
    · exact hwv x hx'

/-! ## Run-level lemmas -/

theorem runLoop_append (D : List Point) (eps : ℚ) (m : ℤ) :
    ∀ (xs ys : List Point) (st : DBState),
    runLoop D eps m (xs ++ ys) st = runLoop D eps m ys (runLoop D eps m xs st) := by
  intro xs
  induction xs with
  | nil => intro ys st; simp [runLoop]
  | cons pt rest ih =>
    intro ys st
    by_cases hvis : pt ∈ st.visited
    · simp only [List.cons_append, runLoop, if_pos hvis]
      exact ih ys st
    · by_cases hcore : ((regionQuery D eps pt).length : ℤ) < m
      · simp only [List.cons_append, runLoop, if_neg hvis, if_pos hcore]
        exact ih ys _
      · simp only [List.cons_append, runLoop, if_neg hvis, if_neg hcore]
        exact ih ys _

theorem runLoop_grow (D : List Point) (eps : ℚ) (m : ℤ) :
    ∀ (rest : List Point) (st : DBState),
    (∃ tc, (runLoop D eps m rest st).Clusters = st.Clusters ++ tc) ∧
    (∃ tn, (runLoop D eps m rest st).NOISE = st.NOISE ++ tn) ∧
    (∃ tv, (runLoop D eps m rest st).visited = st.visited ++ tv) := by
  intro rest
  induction rest with
  | nil => intro st; exact ⟨⟨[], by simp [runLoop]⟩, ⟨[], by simp [runLoop]⟩,
      ⟨[], by simp [runLoop]⟩⟩
  | cons pt rest ih =>
    intro st
    by_cases hvis : pt ∈ st.visited
    · simp only [runLoop, if_pos hvis]
      exact ih st
    · by_cases hcore : ((regionQuery D eps pt).length : ℤ) < m
      · simp only [runLoop, if_neg hvis, if_pos hcore]
        obtain ⟨⟨tc, htc⟩, ⟨tn, htn⟩, ⟨tv, htv⟩⟩ := ih
          { st with visited := st.visited ++ [pt], NOISE := st.NOISE ++ [pt] }
        refine ⟨⟨tc, htc⟩, ⟨pt :: tn, ?_⟩, ⟨pt :: tv, ?_⟩⟩
        · rw [htn]; simp
        · rw [htv]; simp
      · simp only [runLoop, if_neg hvis, if_neg hcore]
        obtain ⟨⟨tc, htc⟩, ⟨tn, htn⟩, ⟨tv, htv⟩⟩ := ih _
        refine ⟨⟨⟨st.nextCid, (expandLoop D eps m (st.Clusters.map Cluster.pts)
            (regionQuery D eps pt) 0 (st.visited ++ [pt]) [pt]).2.2⟩ :: tc, ?_⟩,
          ⟨tn, htn⟩, ?_⟩
        · rw [htc]; simp
        · obtain ⟨-, ⟨tv', htv', -⟩, -⟩ := expandLoop_grow D eps m
            (st.Clusters.map Cluster.pts) (regionQuery D eps pt) 0
            (st.visited ++ [pt]) [pt]
          rw [htv, htv']
          exact ⟨pt :: (tv' ++ tv), by simp⟩

theorem closure_mem_of_visited {D : List Point} {eps : ℚ} {m : ℤ}
    {V : List Point}
    (hV : ∀ q ∈ V, isCore D eps m q → ∀ x ∈ regionQuery D eps q, x ∈ V)
    {s : Point} (hs : s ∈ V) (hsc : isCore D eps m s) :
    ∀ {p : Point}, InClosure D eps m s p → p ∈ V := by
  intro p hcl
  induction hcl with
  | base hp => exact hV s hs hsc _ hp
  | step hq hc hp ih => exact hV _ ih hc _ hp

theorem Inv_skip {D : List Point} {eps : ℚ} {m : ℤ} {A visited : List Point}
    (hinv : Inv D eps m A visited) {pt : Point} (hpt : pt ∈ visited) :
    Inv D eps m (A ++ [pt]) visited := by
  obtain ⟨h1, h2, h3⟩ := hinv
  refine ⟨?_, ?_, h3⟩
  · intro x hx
    rcases List.mem_append.1 hx with hx | hx
    · exact h1 x hx
    · exact List.mem_singleton.1 hx ▸ hpt
  · intro v hv
    rcases h2 v hv with hv' | ⟨s, hs, hsc, hcl⟩
    · exact Or.inl (List.mem_append_left _ hv')
    · exact Or.inr ⟨s, List.mem_append_left _ hs, hsc, hcl⟩

theorem Inv_noise {D : List Point} {eps : ℚ} {m : ℤ} {A visited : List Point}
    (hinv : Inv D eps m A visited) {pt : Point}
    (hpt : ¬isCore D eps m pt) :
    Inv D eps m (A ++ [pt]) (visited ++ [pt]) := by
  obtain ⟨h1, h2, h3⟩ := hinv
  refine ⟨?_, ?_, ?_⟩
  · intro x hx
    rcases List.mem_append.1 hx with hx | hx
    · exact List.mem_append_left _ (h1 x hx)
    · exact List.mem_append_right _ hx
  · intro v hv
    rcases List.mem_append.1 hv with hv | hv
    · rcases h2 v hv with hv' | ⟨s, hs, hsc, hcl⟩
      · exact Or.inl (List.mem_append_left _ hv')
      · exact Or.inr ⟨s, List.mem_append_left _ hs, hsc, hcl⟩
    · exact Or.inl (List.mem_append_right _ hv)
  · intro q hq hqc x hx
    rcases List.mem_append.1 hq with hq | hq
    · exact List.mem_append_left _ (h3 q hq hqc x hx)
    · exact absurd hqc (List.mem_singleton.1 hq ▸ hpt)

theorem Inv_cluster {D : List Point} {eps : ℚ} {m : ℤ} {A visited : List Point}
    (hinv : Inv D eps m A visited) {pt : Point} (hptc : isCore D eps m pt)
    (prev : List (List Point)) :
    Inv D eps m (A ++ [pt])
      (expandLoop D eps m prev (regionQuery D eps pt) 0
        (visited ++ [pt]) [pt]).2.1 := by
  obtain ⟨h1, h2, h3⟩ := hinv
  obtain ⟨-, ⟨tv, htv, -⟩, -⟩ := expandLoop_grow D eps m prev
    (regionQuery D eps pt) 0 (visited ++ [pt]) [pt]
  have hext : ∀ x ∈ visited ++ [pt],
      x ∈ (expandLoop D eps m prev (regionQuery D eps pt) 0
        (visited ++ [pt]) [pt]).2.1 := by
    intro x hx
    rw [htv]
    exact List.mem_append_left _ hx
  have hcl := expandLoop_closure D eps m prev pt (regionQuery D eps pt) 0
    (visited ++ [pt]) [pt] (fun x hx => InClosure.base hx)
  have hcomp := expandLoop_complete D eps m prev (regionQuery D eps pt) 0
    (visited ++ [pt]) [pt] (by simp) ?_
  · refine ⟨?_, ?_, hcomp.2⟩
    · intro x hx
      rcases List.mem_append.1 hx with hx | hx
      · exact hext x (List.mem_append_left _ (h1 x hx))
      · exact hext x (List.mem_append_right _ hx)
    · intro v hv
      rcases hcl.2 v hv with hv' | hv'
      · rcases List.mem_append.1 hv' with hv' | hv'
        · rcases h2 v hv' with hv'' | ⟨s, hs, hsc, hcls⟩
          · exact Or.inl (List.mem_append_left _ hv'')
          · exact Or.inr ⟨s, List.mem_append_left _ hs, hsc, hcls⟩
        · exact Or.inl (List.mem_append_right _ hv')
      · exact Or.inr ⟨pt, List.mem_append_right _ (List.mem_singleton.2 rfl),
          hptc, hv'⟩
  · intro q hq hqc x hx
    rcases List.mem_append.1 hq with hq | hq
    · exact Or.inl (List.mem_append_left _ (h3 q hq hqc x hx))
    · have : q = pt := List.mem_singleton.1 hq
      subst this
      exact Or.inr hx

/-! ## Characterisation of the noise list -/

theorem exists_first_split {p : Point} :
    ∀ {l : List Point}, p ∈ l → ∃ a b : List Point, l = a ++ p :: b ∧ p ∉ a := by
  intro l hl
  induction l with
  | nil => cases hl
  | cons x xs ih =>
    by_cases hx : p = x
    · subst hx
      exact ⟨[], xs, rfl, List.not_mem_nil p⟩
    · rcases List.mem_cons.1 hl with hc | hc
      · exact absurd hc hx
      · obtain ⟨a, b, hab, hpa⟩ := ih hc
        refine ⟨x :: a, b, by rw [hab]; rfl, ?_⟩
        intro hmem
        rcases List.mem_cons.1 hmem with hc' | hc'
        · exact hx hc'
        · exact hpa hc'

theorem first_split_unique {p : Point} :
    ∀ {a c b d : List Point}, a ++ p :: b = c ++ p :: d → p ∉ a → p ∉ c →
    a = c := by
  intro a
  induction a with
  | nil =>
    intro c b d heq _ hc
    cases c with
    | nil => rfl
    | cons y c' =>
      have : p = y := by
        have := congrArg (fun l => l.head?) heq
        simpa using this
      exact absurd (this ▸ List.mem_cons_self y c') hc
  | cons x a' ih =>
    intro c b d heq ha hc
    cases c with
    | nil =>
      have : x = p := by
        have := congrArg (fun l => l.head?) heq
        simpa using this
      exact absurd (this ▸ List.mem_cons_self x a') ha
    | cons y c' =>
      have hxy : x = y := by
        have := congrArg (fun l => l.head?) heq
        simpa using this
      subst hxy
      have htail : a' ++ p :: b = c' ++ p :: d := by
        have := congrArg (fun l => l.tail) heq
        simpa using this
      have ha' : p ∉ a' := fun hmem => ha (List.mem_cons_of_mem _ hmem)
      have hc' : p ∉ c' := fun hmem => hc (List.mem_cons_of_mem _ hmem)
      rw [ih htail ha' hc']

theorem runLoop_noise_sound (D : List Point) (eps : ℚ) (m : ℤ) :
    ∀ (rest : List Point) (st : DBState) (A : List Point),
    D = A ++ rest → Inv D eps m A st.visited →
    ∀ p, p ∈ (runLoop D eps m rest st).NOISE →
      p ∈ st.NOISE ∨ (p ∈ D ∧ noiseP D eps m p) := by
  intro rest st
  induction rest, st using runLoop.induct D eps m with
  | case1 st =>
    intro A hA hinv p hp
    simp only [runLoop] at hp
    exact Or.inl hp
  | case2 pt rest st hvis ih =>
    intro A hA hinv p hp
    simp only [runLoop, if_pos hvis] at hp
    exact ih (A ++ [pt]) (by rw [hA]; simp) (Inv_skip hinv hvis) p hp
  | case3 pt rest st hvis hsmall ih =>
    intro A hA hinv p hp
    simp only [runLoop, if_neg hvis, if_pos hsmall] at hp
    have hnotcore : ¬isCore D eps m pt := by
      unfold isCore; omega
    rcases ih (A ++ [pt]) (by rw [hA]; simp) (Inv_noise hinv hnotcore) p hp with
      hp' | hp'
    · rcases List.mem_append.1 hp' with hp'' | hp''
      · exact Or.inl hp''
      · have hppt : p = pt := List.mem_singleton.1 hp''
        subst hppt
        refine Or.inr ⟨by rw [hA]; simp, hnotcore, ?_⟩
        intro A₂ B₂ hsplit hnotin s hsA₂ hscore hcl
        have hptA : p ∉ A := fun hcon => hvis (hinv.1 p hcon)
        have hAeq : A₂ = A :=
          first_split_unique (hsplit.symm.trans hA) hnotin hptA
        subst hAeq
        exact hvis (closure_mem_of_visited hinv.2.2 (hinv.1 s hsA₂) hscore hcl)
    · exact Or.inr hp'
  | case4 pt rest st hvis hbig r ih =>
    intro A hA hinv p hp
    simp only [runLoop, if_neg hvis, if_neg hbig] at hp
    have hcore : isCore D eps m pt := by
      unfold isCore; omega
    exact ih (A ++ [pt]) (by rw [hA]; simp)
      (Inv_cluster hinv hcore (st.Clusters.map Cluster.pts)) p hp

theorem runLoop_noise_complete (D : List Point) (eps : ℚ) (m : ℤ) :
    ∀ (rest : List Point) (st : DBState) (A : List Point),
    D = A ++ rest → Inv D eps m A st.visited →
    ∀ p, p ∈ rest → p ∉ st.visited → noiseP D eps m p →
    p ∈ (runLoop D eps m rest st).NOISE := by
  intro rest st
  induction rest, st using runLoop.induct D eps m with
  | case1 st =>
    intro A hA hinv p hp
    cases hp
  | case2 pt rest st hvis ih =>
    intro A hA hinv p hp hpvis hnp
    simp only [runLoop, if_pos hvis]
    rcases List.mem_cons.1 hp with rfl | hp'
    · exact absurd hvis hpvis
    · exact ih (A ++ [pt]) (by rw [hA]; simp) (Inv_skip hinv hvis) p hp' hpvis hnp
  | case3 pt rest st hvis hsmall ih =>
    intro A hA hinv p hp hpvis hnp
    simp only [runLoop, if_neg hvis, if_pos hsmall]
    have hnotcore : ¬isCore D eps m pt := by
      unfold isCore; omega
    by_cases hppt : p = pt
    · subst hppt
      obtain ⟨-, ⟨tn, htn⟩, -⟩ := runLoop_grow D eps m rest
        { st with visited := st.visited ++ [p], NOISE := st.NOISE ++ [p] }
      rw [htn]
      exact List.mem_append_left _
        (List.mem_append_right _ (List.mem_singleton.2 rfl))
    · have hp' : p ∈ rest := by
        rcases List.mem_cons.1 hp with hc | hc
        · exact absurd hc hppt
        · exact hc
      refine ih (A ++ [pt]) (by rw [hA]; simp) (Inv_noise hinv hnotcore) p hp' ?_ hnp
      intro hmem
      rcases List.mem_append.1 hmem with hc | hc
      · exact hpvis hc
      · exact hppt (List.mem_singleton.1 hc)
  | case4 pt rest st hvis hbig r ih =>
    intro A hA hinv p hp hpvis hnp
    simp only [runLoop, if_neg hvis, if_neg hbig]
    have hcore : isCore D eps m pt := by
      unfold isCore; omega
    rcases List.mem_cons.1 hp with rfl | hp'
    · exact absurd hcore hnp.1
    · by_cases hppt : p = pt
      · subst hppt
        exact absurd hcore hnp.1
      · refine ih (A ++ [pt]) (by rw [hA]; simp)
          (Inv_cluster hinv hcore (st.Clusters.map Cluster.pts)) p hp' ?_ hnp
        intro hmem
        have hclo := expandLoop_closure D eps m (st.Clusters.map Cluster.pts) pt
          (regionQuery D eps pt) 0 (st.visited ++ [pt]) [pt]
          (fun x hx => InClosure.base hx)
        rcases hclo.2 p hmem with hc | hc
        · rcases List.mem_append.1 hc with hc' | hc'
          · exact hpvis hc'
          · exact hppt (List.mem_singleton.1 hc')
        · obtain ⟨a, b, hab, hpa⟩ := exists_first_split hp'
          have hsplit : D = (A ++ pt :: a) ++ p :: b := by
            rw [hA, hab]; simp
          have hpnotin : p ∉ A ++ pt :: a := by
            intro hcmem
            rcases List.mem_append.1 hcmem with hc' | hc'
            · exact hpvis (hinv.1 p hc')
            · rcases List.mem_cons.1 hc' with hc'' | hc''
              · exact hppt hc''
              · exact hpa hc''
          exact absurd hc (hnp.2 (A ++ pt :: a) b hsplit hpnotin pt
            (List.mem_append_right _ (List.mem_cons_self pt a)) hcore)

theorem runLoop_noise_nodup (D : List Point) (eps : ℚ) (m : ℤ) :
    ∀ (rest : List Point) (st : DBState),
    st.NOISE.Nodup → (∀ x ∈ st.NOISE, x ∈ st.visited) →
    (runLoop D eps m rest st).NOISE.Nodup := by
  intro rest st
  induction rest, st using runLoop.induct D eps m with
  | case1 st =>
    intro hnd hsub
    simpa [runLoop] using hnd
  | case2 pt rest st hvis ih =>
    intro hnd hsub
    simp only [runLoop, if_pos hvis]
    exact ih hnd hsub
  | case3 pt rest st hvis hsmall ih =>
    intro hnd hsub
    simp only [runLoop, if_neg hvis, if_pos hsmall]
    refine ih ?_ ?_
    · show (st.NOISE ++ [pt]).Nodup
      have hptn : pt ∉ st.NOISE := fun hc => hvis (hsub pt hc)
      simp [List.nodup_append, hnd, hptn]
    · show ∀ x ∈ st.NOISE ++ [pt], x ∈ st.visited ++ [pt]
      intro x hx
      rcases List.mem_append.1 hx with hx | hx
      · exact List.mem_append_left _ (hsub x hx)
      · exact List.mem_append_right _ hx
  | case4 pt rest st hvis hbig r ih =>
    intro hnd hsub
    simp only [runLoop, if_neg hvis, if_neg hbig]
    refine ih hnd ?_
    obtain ⟨-, ⟨tv, htv, -⟩, -⟩ := expandLoop_grow D eps m
      (st.Clusters.map Cluster.pts) (regionQuery D eps pt) 0
      (st.visited ++ [pt]) [pt]
    intro x hx
    rw [htv]
    exact List.mem_append_left _ (List.mem_append_left _ (hsub x hx))

theorem mem_run_noise_iff (D : List Point) (eps : ℚ) (m : ℤ) (c : Nat)
    (p : Point) :
    p ∈ (run D eps m c).NOISE ↔ p ∈ D ∧ noiseP D (eps * eps) m p := by
  have hinv0 : Inv D (eps * eps) m []
      (DBState.mk [] [] [] c).visited :=
    ⟨fun x hx => absurd hx (List.not_mem_nil x),
     fun v hv => absurd hv (List.not_mem_nil v),
     fun q hq => absurd hq (List.not_mem_nil q)⟩
  constructor
  · intro hp
    rcases runLoop_noise_sound D (eps * eps) m D
      (DBState.mk [] [] [] c) [] rfl hinv0 p hp with h | h
    · exact absurd h (List.not_mem_nil p)
    · exact h
  · rintro ⟨hpD, hnp⟩
    exact runLoop_noise_complete D (eps * eps) m D
      (DBState.mk [] [] [] c) [] rfl hinv0 p hpD (List.not_mem_nil p) hnp

theorem run_noise_nodup (D : List Point) (eps : ℚ) (m : ℤ) (c : Nat) :
    (run D eps m c).NOISE.Nodup := by
  exact runLoop_noise_nodup D (eps * eps) m D (DBState.mk [] [] [] c)
    List.nodup_nil (fun x hx => absurd hx (List.not_mem_nil x))

/-! ## Monotonicity in the threshold -/

theorem regionQuery_mono {e e' : ℚ} (h : e ≤ e') (D : List Point) (p : Point) :
    List.Sublist (regionQuery D e p) (regionQuery D e' p) := by
  apply List.monotone_filter_right
  intro a ha
  simp only [decide_eq_true_eq] at *
  exact le_trans ha h

theorem isCore_mono {e e' : ℚ} (h : e ≤ e') {D : List Point} {m : ℤ}
    {p : Point} (hc : isCore D e m p) : isCore D e' m p := by
  unfold isCore at *
  have := (regionQuery_mono h D p).length_le
  omega

theorem InClosure_mono {e e' : ℚ} (h : e ≤ e') {D : List Point} {m : ℤ}
    {s p : Point} (hcl : InClosure D e m s p) : InClosure D e' m s p := by
  induction hcl with
  | base hp => exact InClosure.base ((regionQuery_mono h D _).subset hp)
  | step hq hc hp ih =>
    exact InClosure.step ih (isCore_mono h hc) ((regionQuery_mono h D _).subset hp)

theorem noiseP_anti {e e' : ℚ} (h : e ≤ e') {D : List Point} {m : ℤ}
    {p : Point} (hn : noiseP D e' m p) : noiseP D e m p := by
  refine ⟨fun hc => hn.1 (isCore_mono h hc), ?_⟩
  intro A B hs hnotin s hsA hscore hcl
  exact hn.2 A B hs hnotin s hsA (isCore_mono h hscore) (InClosure_mono h hcl)

/-- C5: for a fixed dataset and `minPts`, enlarging the (non-negative)
threshold `eps` never increases the number of points in the returned noise
list. -/
theorem dbscan_noise_monotone (D : List Point) (m : ℤ) (e₁ e₂ : ℚ)
    (c₁ c₂ : Nat) (h0 : 0 ≤ e₁) (h12 : e₁ ≤ e₂) :
    (run D e₂ m c₂).NOISE.length ≤ (run D e₁ m c₁).NOISE.length := by
  have hsq : e₁ * e₁ ≤ e₂ * e₂ := mul_self_le_mul_self h0 h12
  have hsubset : (run D e₂ m c₂).NOISE ⊆ (run D e₁ m c₁).NOISE := by
    intro p hp
    rw [mem_run_noise_iff] at hp ⊢
    exact ⟨hp.1, noiseP_anti hsq hp.2⟩
  exact ((run_noise_nodup D e₂ m c₂).subperm hsubset).length_le

/-- Witness for C5 at a concrete instance: two far-apart points, `minPts = 2`;
with `eps = 1` both are noise, with `eps = 20` none is. -/
theorem dbscan_noise_monotone_witness :
    (run [("A", 0, 0), ("B", 10, 0)] 20 2 0).NOISE.length ≤
      (run [("A", 0, 0), ("B", 10, 0)] 1 2 0).NOISE.length :=
  dbscan_noise_monotone [("A", 0, 0), ("B", 10, 0)] 2 1 20 0 0
    (by norm_num) (by norm_num)

/-! ## Further run-level lemmas -/

theorem self_mem_regionQuery {D : List Point} {e : ℚ} (he : 0 ≤ e)
    {pt : Point} (hpt : pt ∈ D) : pt ∈ regionQuery D e pt := by
  rw [regionQuery, List.mem_filter]
  refine ⟨hpt, ?_⟩
  simp only [sub_self, decide_eq_true_eq]
  simpa using he

theorem runLoop_visited_nodup (D : List Point) (eps : ℚ) (m : ℤ) :
    ∀ (rest : List Point) (st : DBState), st.visited.Nodup →
    (runLoop D eps m rest st).visited.Nodup := by
  intro rest st
  induction rest, st using runLoop.induct D eps m with
  | case1 st =>
    intro hnd
    simpa [runLoop] using hnd
  | case2 pt rest st hvis ih =>
    intro hnd
    simp only [runLoop, if_pos hvis]
    exact ih hnd
  | case3 pt rest st hvis hsmall ih =>
    intro hnd
    simp only [runLoop, if_neg hvis, if_pos hsmall]
    exact ih (by simp [List.nodup_append, hnd, hvis])
  | case4 pt rest st hvis hbig r ih =>
    intro hnd
    simp only [runLoop, if_neg hvis, if_neg hbig]
    exact ih (expandLoop_visited_nodup D eps m (st.Clusters.map Cluster.pts)
      (regionQuery D eps pt) 0 (st.visited ++ [pt]) [pt]
      (by simp [List.nodup_append, hnd, hvis]))

theorem runLoop_visited_subset (D : List Point) (eps : ℚ) (m : ℤ) :
    ∀ (rest : List Point) (st : DBState), (∀ x ∈ rest, x ∈ D) →
    (∀ v ∈ st.visited, v ∈ D) →
    ∀ v ∈ (runLoop D eps m rest st).visited, v ∈ D := by
  intro rest st
  induction rest, st using runLoop.induct D eps m with
  | case1 st =>
    intro _ hsub
    simpa [runLoop] using hsub
  | case2 pt rest st hvis ih =>
    intro hrest hsub
    simp only [runLoop, if_pos hvis]
    exact ih (fun x hx => hrest x (List.mem_cons_of_mem _ hx)) hsub
  | case3 pt rest st hvis hsmall ih =>
    intro hrest hsub
    simp only [runLoop, if_neg hvis, if_pos hsmall]
    refine ih (fun x hx => hrest x (List.mem_cons_of_mem _ hx)) ?_
    intro v hv
    rcases List.mem_append.1 hv with hv | hv
    · exact hsub v hv
    · exact List.mem_singleton.1 hv ▸ hrest pt (List.mem_cons_self pt rest)
  | case4 pt rest st hvis hbig r ih =>
    intro hrest hsub
    simp only [runLoop, if_neg hvis, if_neg hbig]
    refine ih (fun x hx => hrest x (List.mem_cons_of_mem _ hx)) ?_
    intro v hv
    obtain ⟨-, ⟨tv, htv, htvw⟩, -⟩ := expandLoop_grow D eps m
      (st.Clusters.map Cluster.pts) (regionQuery D eps pt) 0
      (st.visited ++ [pt]) [pt]
    rw [htv] at hv
    rcases List.mem_append.1 hv with hv | hv
    · rcases List.mem_append.1 hv with hv | hv
      · exact hsub v hv
      · exact List.mem_singleton.1 hv ▸ hrest pt (List.mem_cons_self pt rest)
    · exact expandLoop_w_subset D eps m (st.Clusters.map Cluster.pts)
        (regionQuery D eps pt) 0 (st.visited ++ [pt]) [pt]
        (fun x hx => List.mem_of_mem_filter hx) v (htvw v hv)

theorem runLoop_all_visited (D : List Point) (eps : ℚ) (m : ℤ) :
    ∀ (rest : List Point) (st : DBState),
    ∀ x ∈ rest, x ∈ (runLoop D eps m rest st).visited := by
  intro rest st
  induction rest, st using runLoop.induct D eps m with
  | case1 st =>
    intro x hx
    cases hx
  | case2 pt rest st hvis ih =>
    intro x hx
    simp only [runLoop, if_pos hvis]
    rcases List.mem_cons.1 hx with rfl | hx'
    · obtain ⟨-, -, ⟨tv, htv⟩⟩ := runLoop_grow D eps m rest st
      rw [htv]
      exact List.mem_append_left _ hvis
    · exact ih x hx'
  | case3 pt rest st hvis hsmall ih =>
    intro x hx
    simp only [runLoop, if_neg hvis, if_pos hsmall]
    rcases List.mem_cons.1 hx with rfl | hx'
    · obtain ⟨-, -, ⟨tv, htv⟩⟩ := runLoop_grow D eps m rest
        { st with visited := st.visited ++ [x], NOISE := st.NOISE ++ [x] }
      rw [htv]
      exact List.mem_append_left _
        (List.mem_append_right _ (List.mem_singleton.2 rfl))
    · exact ih x hx'
  | case4 pt rest st hvis hbig r ih =>
    intro x hx
    simp only [runLoop, if_neg hvis, if_neg hbig]
    rcases List.mem_cons.1 hx with rfl | hx'
    · obtain ⟨-, -, ⟨tv, htv⟩⟩ := runLoop_grow D eps m rest
        { st with
            visited := (expandLoop D eps m (st.Clusters.map Cluster.pts)
              (regionQuery D eps x) 0 (st.visited ++ [x]) [x]).2.1,
            Clusters := st.Clusters ++ [⟨st.nextCid,
              (expandLoop D eps m (st.Clusters.map Cluster.pts)
                (regionQuery D eps x) 0 (st.visited ++ [x]) [x]).2.2⟩],
            nextCid := st.nextCid + 1 }
      rw [htv]
      obtain ⟨-, ⟨tv', htv', -⟩, -⟩ := expandLoop_grow D eps m
        (st.Clusters.map Cluster.pts) (regionQuery D eps x) 0
        (st.visited ++ [x]) [x]
      refine List.mem_append_left _ ?_
      rw [htv']
      exact List.mem_append_left _
        (List.mem_append_right _ (List.mem_singleton.2 rfl))
    · exact ih x hx'

theorem runLoop_coverage (D : List Point) (eps : ℚ) (m : ℤ) :
    ∀ (rest : List Point) (st : DBState),
    (∀ v ∈ st.visited, v ∈ st.NOISE ∨ ∃ cl ∈ st.Clusters, v ∈ cl.pts) →
    (∀ cl ∈ st.Clusters, cl.pts.Nodup) →
    (∀ v ∈ (runLoop D eps m rest st).visited,
      v ∈ (runLoop D eps m rest st).NOISE ∨
        ∃ cl ∈ (runLoop D eps m rest st).Clusters, v ∈ cl.pts) ∧
    (∀ cl ∈ (runLoop D eps m rest st).Clusters, cl.pts.Nodup) := by
  intro rest st
  induction rest, st using runLoop.induct D eps m with
  | case1 st =>
    intro hcov hnd
    simp only [runLoop]
    exact ⟨hcov, hnd⟩
  | case2 pt rest st hvis ih =>
    intro hcov hnd
    simp only [runLoop, if_pos hvis]
    exact ih hcov hnd
  | case3 pt rest st hvis hsmall ih =>
    intro hcov hnd
    simp only [runLoop, if_neg hvis, if_pos hsmall]
    refine ih ?_ hnd
    intro v hv
    rcases List.mem_append.1 hv with hv | hv
    · rcases hcov v hv with hv' | ⟨cl, hcl, hvcl⟩
      · exact Or.inl (List.mem_append_left _ hv')
      · exact Or.inr ⟨cl, hcl, hvcl⟩
    · exact Or.inl (List.mem_append_right _ hv)
  | case4 pt rest st hvis hbig r ih =>
    intro hcov hnd
    simp only [runLoop, if_neg hvis, if_neg hbig]
    have hwC := expandLoop_w_mem_C D eps m (st.Clusters.map Cluster.pts)
      (regionQuery D eps pt) 0 (st.visited ++ [pt]) [pt] (by simp)
    obtain ⟨-, ⟨tv, htv, htvw⟩, ⟨tc, htc⟩⟩ := expandLoop_grow D eps m
      (st.Clusters.map Cluster.pts) (regionQuery D eps pt) 0
      (st.visited ++ [pt]) [pt]
    refine ih ?_ ?_
    · intro v hv
      show v ∈ st.NOISE ∨ ∃ cl ∈ st.Clusters ++ [⟨st.nextCid,
        (expandLoop D eps m (st.Clusters.map Cluster.pts)
          (regionQuery D eps pt) 0 (st.visited ++ [pt]) [pt]).2.2⟩], v ∈ cl.pts
      rw [htv] at hv
      rcases List.mem_append.1 hv with hv | hv
      · rcases List.mem_append.1 hv with hv | hv
        · rcases hcov v hv with hv' | ⟨cl, hcl, hvcl⟩
          · exact Or.inl hv'
          · exact Or.inr ⟨cl, List.mem_append_left _ hcl, hvcl⟩
        · refine Or.inr ⟨_, List.mem_append_right _ (List.mem_singleton.2 rfl), ?_⟩
          rw [htc]
          exact List.mem_append_left _ hv
      · exact Or.inr ⟨_, List.mem_append_right _ (List.mem_singleton.2 rfl),
          hwC v (htvw v hv)⟩
    · intro cl hcl
      rcases List.mem_append.1 hcl with hcl | hcl
      · exact hnd cl hcl
      · rw [List.mem_singleton.1 hcl]
        exact expandLoop_C_nodup D eps m (st.Clusters.map Cluster.pts)
          (regionQuery D eps pt) 0 (st.visited ++ [pt]) [pt]
          (List.nodup_singleton pt)

theorem runLoop_noise_stays_empty (D : List Point) (eps : ℚ) (m : ℤ)
    (he : 0 ≤ eps) (hm : m ≤ 1) :
    ∀ (rest : List Point) (st : DBState), (∀ x ∈ rest, x ∈ D) →
    st.NOISE = [] → (runLoop D eps m rest st).NOISE = [] := by
  intro rest st
  induction rest, st using runLoop.induct D eps m with
  | case1 st =>
    intro _ hn
    simpa [runLoop] using hn
  | case2 pt rest st hvis ih =>
    intro hrest hn
    simp only [runLoop, if_pos hvis]
    exact ih (fun x hx => hrest x (List.mem_cons_of_mem _ hx)) hn
  | case3 pt rest st hvis hsmall ih =>
    intro hrest hn
    have hself : pt ∈ regionQuery D eps pt :=
      self_mem_regionQuery he (hrest pt (List.mem_cons_self pt rest))
    have hlen : 1 ≤ ((regionQuery D eps pt).length : ℤ) := by
      have := List.length_pos.2 (List.ne_nil_of_mem hself)
      omega
    omega
  | case4 pt rest st hvis hbig r ih =>
    intro hrest hn
    simp only [runLoop, if_neg hvis, if_neg hbig]
    exact ih (fun x hx => hrest x (List.mem_cons_of_mem _ hx)) hn

theorem runLoop_cid_indep (D : List Point) (eps : ℚ) (m : ℤ) :
    ∀ (rest : List Point) (st st' : DBState),
    st.Clusters.map Cluster.pts = st'.Clusters.map Cluster.pts →
    st.NOISE = st'.NOISE → st.visited = st'.visited →
    (runLoop D eps m rest st).Clusters.map Cluster.pts =
      (runLoop D eps m rest st').Clusters.map Cluster.pts ∧
    (runLoop D eps m rest st).NOISE = (runLoop D eps m rest st').NOISE ∧
    (runLoop D eps m rest st).visited = (runLoop D eps m rest st').visited := by
  intro rest
  induction rest with
  | nil =>
    intro st st' hc hn hv
    simpa [runLoop] using ⟨hc, hn, hv⟩
  | cons pt rest ih =>
    intro st st' hc hn hv
    by_cases hvis : pt ∈ st.visited
    · have hvis' : pt ∈ st'.visited := hv ▸ hvis
      simp only [runLoop, if_pos hvis, if_pos hvis']
      exact ih st st' hc hn hv
    · have hvis' : pt ∉ st'.visited := hv ▸ hvis
      by_cases hcore : ((regionQuery D eps pt).length : ℤ) < m
      · simp only [runLoop, if_neg hvis, if_neg hvis', if_pos hcore]
        exact ih _ _ hc (by simp [hn]) (by simp [hv])
      · simp only [runLoop, if_neg hvis, if_neg hvis', if_neg hcore]
        have hexp : expandLoop D eps m (st.Clusters.map Cluster.pts)
            (regionQuery D eps pt) 0 (st.visited ++ [pt]) [pt] =
            expandLoop D eps m (st'.Clusters.map Cluster.pts)
            (regionQuery D eps pt) 0 (st'.visited ++ [pt]) [pt] := by
          rw [hc, hv]
        refine ih _ _ ?_ ?_ ?_
        · show (st.Clusters ++ [Cluster.mk st.nextCid (expandLoop D eps m
            (st.Clusters.map Cluster.pts) (regionQuery D eps pt) 0
            (st.visited ++ [pt]) [pt]).2.2]).map Cluster.pts =
            (st'.Clusters ++ [Cluster.mk st'.nextCid (expandLoop D eps m
            (st'.Clusters.map Cluster.pts) (regionQuery D eps pt) 0
            (st'.visited ++ [pt]) [pt]).2.2]).map Cluster.pts
          rw [List.map_append, List.map_append, hc, hv]
          simp
        · exact hn
        · show (expandLoop D eps m (st.Clusters.map Cluster.pts)
            (regionQuery D eps pt) 0 (st.visited ++ [pt]) [pt]).2.1 =
            (expandLoop D eps m (st'.Clusters.map Cluster.pts)
            (regionQuery D eps pt) 0 (st'.visited ++ [pt]) [pt]).2.1
          rw [hexp]

/-! ## Claim theorems -/

/-- C1, counterexample: on `noiseClusterEx` (with `eps = 1`, `minPts = 3`)
the point `("q", 1, 0)` ends up in the noise list *and* in the single
cluster, so it does not appear in exactly one of cluster/noise, and the
total point count across clusters plus noise is `5`, not the input count
`4`. -/
theorem dbscan_partition_counterexample :
    (run noiseClusterEx 1 3 0).NOISE = [("q", 1, 0)] ∧
    (run noiseClusterEx 1 3 0).Clusters.map Cluster.pts =
      [[("c", 2, 0), ("q", 1, 0), ("a", 3, 0), ("b", 4, 0)]] ∧
    ((run noiseClusterEx 1 3 0).Clusters.map
      (fun cl => cl.pts.length)).sum + (run noiseClusterEx 1 3 0).NOISE.length = 5 ∧
    noiseClusterEx.dedup.length = 4 := by
  have hq : regionQuery [("q", 1, 0), ("c", 2, 0), ("a", 3, 0), ("b", 4, 0)]
      1 ("q", 1, 0) = [("q", 1, 0), ("c", 2, 0)] := by
    norm_num [regionQuery]
  have hc : regionQuery [("q", 1, 0), ("c", 2, 0), ("a", 3, 0), ("b", 4, 0)]
      1 ("c", 2, 0) = [("q", 1, 0), ("c", 2, 0), ("a", 3, 0)] := by
    norm_num [regionQuery]
  have ha : regionQuery [("q", 1, 0), ("c", 2, 0), ("a", 3, 0), ("b", 4, 0)]
      1 ("a", 3, 0) = [("c", 2, 0), ("a", 3, 0), ("b", 4, 0)] := by
    norm_num [regionQuery]
  have hb : regionQuery [("q", 1, 0), ("c", 2, 0), ("a", 3, 0), ("b", 4, 0)]
      1 ("b", 4, 0) = [("a", 3, 0), ("b", 4, 0)] := by
    norm_num [regionQuery]
  have hexp : expandLoop [("q", 1, 0), ("c", 2, 0), ("a", 3, 0), ("b", 4, 0)]
      1 3 [] [("q", 1, 0), ("c", 2, 0), ("a", 3, 0)] 0
      [("q", 1, 0), ("c", 2, 0)] [("c", 2, 0)] =
      ([("q", 1, 0), ("c", 2, 0), ("a", 3, 0), ("b", 4, 0)],
       [("q", 1, 0), ("c", 2, 0), ("a", 3, 0), ("b", 4, 0)],
       [("c", 2, 0), ("q", 1, 0), ("a", 3, 0), ("b", 4, 0)]) := by
    rw [expandLoop]
    norm_num [absorbLoop, hq]
    rw [expandLoop]
    norm_num [absorbLoop, hc]
    rw [expandLoop]
    norm_num [absorbLoop, ha, appendNew]
    rw [expandLoop]
    norm_num [absorbLoop, hb]
    rw [expandLoop]
    norm_num
  have hrun : run noiseClusterEx 1 3 0 =
      DBState.mk [⟨0, [("c", 2, 0), ("q", 1, 0), ("a", 3, 0), ("b", 4, 0)]⟩]
        [("q", 1, 0)]
        [("q", 1, 0), ("c", 2, 0), ("a", 3, 0), ("b", 4, 0)] 1 := by
    show runLoop noiseClusterEx (1 * 1) 3 noiseClusterEx (DBState.mk [] [] [] 0) = _
    simp only [noiseClusterEx]
    rw [runLoop]
    norm_num [hq]
    rw [runLoop]
    norm_num [hc, hexp]
    rw [runLoop]
    norm_num
    rw [runLoop]
    norm_num
    rw [runLoop]
  have hdedup : noiseClusterEx.dedup = noiseClusterEx :=
    List.dedup_eq_self.2 (by norm_num [noiseClusterEx])
  rw [hrun, hdedup]
  norm_num [noiseClusterEx]

/-- C1 (amended): after `run()`, every input point appears in at least one of
some cluster's member list or the noise list, and no point appears twice
within a single cluster's member list; however a point may appear in several
clusters (and in both the noise list and a cluster), so the total count
across clusters plus noise can exceed the input count. -/
theorem dbscan_partition_amended (D : List Point) (eps : ℚ) (m : ℤ) (c : Nat) :
    (∀ p ∈ D, p ∈ (run D eps m c).NOISE ∨
      ∃ cl ∈ (run D eps m c).Clusters, p ∈ cl.pts) ∧
    (∀ cl ∈ (run D eps m c).Clusters, cl.pts.Nodup) := by
  have hcov := runLoop_coverage D (eps * eps) m D (DBState.mk [] [] [] c)
    (fun v hv => absurd hv (List.not_mem_nil v))
    (fun cl hcl => absurd hcl (List.not_mem_nil cl))
  refine ⟨?_, hcov.2⟩
  intro p hp
  exact hcov.1 p (runLoop_all_visited D (eps * eps) m D (DBState.mk [] [] [] c) p hp)

/-- Witness for C1 (amended) at a concrete instance. -/
theorem dbscan_partition_amended_witness :
    ("A", (1 : ℚ), (0 : ℚ)) ∈ (run [("A", 1, 0)] 1 1 0).NOISE ∨
      ∃ cl ∈ (run [("A", 1, 0)] 1 1 0).Clusters,
        ("A", (1 : ℚ), (0 : ℚ)) ∈ cl.pts :=
  (dbscan_partition_amended [("A", 1, 0)] 1 1 0).1 ("A", 1, 0) (by simp)

/-- C2, counterexample: with the invalid parameters `eps = -1`, `minPts = 0`
the engine does not fail fast: the call runs to completion and silently
appends a cluster to the cluster list (and returns no noise). -/
theorem dbscan_validation_counterexample :
    run [("A", 1, 0)] (-1) 0 0 =
      DBState.mk [⟨0, [("A", 1, 0)]⟩] [] [("A", 1, 0)] 1 := by
  have hrq : regionQuery [("A", 1, 0)] 1 ("A", 1, 0) = [("A", 1, 0)] := by
    norm_num [regionQuery]
  have hexp : expandLoop [("A", 1, 0)] 1 0 []
      [("A", 1, 0)] 0 [("A", 1, 0)] [("A", 1, 0)] =
      ([("A", 1, 0)], [("A", 1, 0)], [("A", 1, 0)]) := by
    rw [expandLoop]
    norm_num [absorbLoop]
    rw [expandLoop]
    norm_num
  show runLoop [("A", 1, 0)] ((-1) * (-1)) 0 [("A", 1, 0)] (DBState.mk [] [] [] 0) = _
  rw [runLoop]
  norm_num [hrq, hexp]
  rw [runLoop]

/-- C2 (amended): the engine performs no parameter validation; a call with
`eps < 0` and `minPts < 1` proceeds to scan normally and silently produces a
complete clustering (every point becomes a core point, so the noise list is
empty, and a non-empty dataset yields at least one cluster). -/
theorem dbscan_no_validation (D : List Point) (eps : ℚ) (m : ℤ) (c : Nat)
    (heps : eps < 0) (hm : m < 1) :
    (run D eps m c).NOISE = [] ∧ (D ≠ [] → (run D eps m c).Clusters ≠ []) := by
  constructor
  · exact runLoop_noise_stays_empty D (eps * eps) m (mul_self_nonneg eps)
      (by omega) D _ (fun x hx => hx) rfl
  · intro hD
    cases D with
    | nil => exact absurd rfl hD
    | cons pt D' =>
      have hself : pt ∈ regionQuery (pt :: D') (eps * eps) pt :=
        self_mem_regionQuery (mul_self_nonneg eps) (List.mem_cons_self pt D')
      have hpos := List.length_pos.2 (List.ne_nil_of_mem hself)
      have hbig : ¬((regionQuery (pt :: D') (eps * eps) pt).length : ℤ) < m := by
        omega
      show (runLoop (pt :: D') (eps * eps) m (pt :: D')
        (DBState.mk [] [] [] c)).Clusters ≠ []
      simp only [runLoop, if_neg (List.not_mem_nil pt), if_neg hbig]
      obtain ⟨⟨tc, htc⟩, -, -⟩ := runLoop_grow (pt :: D') (eps * eps) m D' _
      rw [htc]
      simp

/-- Witness for C2 (amended) at a concrete instance. -/
theorem dbscan_no_validation_witness :
    (run [("A", 1, 0)] (-1) 0 0).NOISE = [] ∧
      (run [("A", 1, 0)] (-1) 0 0).Clusters ≠ [] :=
  ⟨(dbscan_no_validation [("A", 1, 0)] (-1) 0 0 (by norm_num) (by norm_num)).1,
   (dbscan_no_validation [("A", 1, 0)] (-1) 0 0 (by norm_num) (by norm_num)).2
     (by simp)⟩

/-- C3: with the squared threshold `eps*eps` installed by the constructor,
`regionQuery(pt)` returns exactly the points of `D` whose squared Euclidean
distance to `pt` is at most `eps^2`, in dataset order (a sublist of `D`);
`pt` itself always belongs to its own query; and the formula differs from the
Manhattan-distance query (the two disagree on the concrete dataset `manEx`). -/
theorem dbscan_regionQuery_spec (D : List Point) (eps : ℚ) (pt : Point)
    (h0 : 0 ≤ eps) :
    (∀ q, q ∈ regionQuery D (eps * eps) pt ↔
      q ∈ D ∧ (q.2.1 - pt.2.1) ^ 2 + (q.2.2 - pt.2.2) ^ 2 ≤ eps ^ 2) ∧
    List.Sublist (regionQuery D (eps * eps) pt) D ∧
    (pt ∈ D → pt ∈ regionQuery D (eps * eps) pt) ∧
    regionQuery manEx 2 originPt ≠ manhattanQuery manEx 2 originPt := by
  refine ⟨?_, ?_, ?_, ?_⟩
  · intro q
    rw [regionQuery, List.mem_filter]
    simp [pow_two]
  · exact List.filter_sublist D
  · exact fun hpt => self_mem_regionQuery (mul_self_nonneg eps) hpt
  · norm_num [regionQuery, manhattanQuery, manEx, originPt]

/-- Witness for C3 at a concrete instance. -/
theorem dbscan_regionQuery_spec_witness :
    ("A", (1 : ℚ), (0 : ℚ)) ∈ regionQuery [("A", 1, 0)] (1 * 1) ("A", 1, 0) :=
  (dbscan_regionQuery_spec [("A", 1, 0)] 1 ("A", 1, 0) (by norm_num)).2.2.1
    (by simp)

/-- C4: `run` is a pure function of its inputs, and two runs on the same
dataset and parameters differ at most in the numeric cluster ids (which come
from the global counter `Cluster.cid`, modelled by `cid0`): the sequences of
cluster member lists and the noise lists coincide for any two counter
values. -/
theorem dbscan_deterministic_membership (D : List Point) (eps : ℚ) (m : ℤ)
    (c c' : Nat) :
    (run D eps m c).Clusters.map Cluster.pts =
      (run D eps m c').Clusters.map Cluster.pts ∧
    (run D eps m c).NOISE = (run D eps m c').NOISE := by
  have h := runLoop_cid_indep D (eps * eps) m D (DBState.mk [] [] [] c)
    (DBState.mk [] [] [] c') rfl rfl rfl
  exact ⟨h.1, h.2.1⟩

/-- C6: when an unvisited point `pt` is selected as a seed, it is classified
by comparing its neighborhood size against `minPts`: with at least `minPts`
neighbors a new cluster (carrying the next id) containing `pt` is created and
expanded; with at most `minPts - 1` neighbors `pt` is appended to the noise
list and the cluster list is left unchanged. -/
theorem dbscan_minPts_boundary (D : List Point) (eps : ℚ) (m : ℤ)
    (rest : List Point) (st : DBState) (pt : Point) (hvis : pt ∉ st.visited) :
    (m ≤ ((regionQuery D eps pt).length : ℤ) →
      runLoop D eps m (pt :: rest) st = runLoop D eps m rest
        { st with
            visited := (expandLoop D eps m (st.Clusters.map Cluster.pts)
              (regionQuery D eps pt) 0 (st.visited ++ [pt]) [pt]).2.1,
            Clusters := st.Clusters ++ [⟨st.nextCid, (expandLoop D eps m
              (st.Clusters.map Cluster.pts) (regionQuery D eps pt) 0
              (st.visited ++ [pt]) [pt]).2.2⟩],
            nextCid := st.nextCid + 1 } ∧
      pt ∈ (expandLoop D eps m (st.Clusters.map Cluster.pts)
        (regionQuery D eps pt) 0 (st.visited ++ [pt]) [pt]).2.2) ∧
    (((regionQuery D eps pt).length : ℤ) ≤ m - 1 →
      runLoop D eps m (pt :: rest) st = runLoop D eps m rest
        { st with visited := st.visited ++ [pt], NOISE := st.NOISE ++ [pt] }) := by
  constructor
  · intro hcore
    constructor
    · simp only [runLoop, if_neg hvis,
        if_neg (by omega : ¬((regionQuery D eps pt).length : ℤ) < m)]
    · obtain ⟨-, -, ⟨tc, htc⟩⟩ := expandLoop_grow D eps m
        (st.Clusters.map Cluster.pts) (regionQuery D eps pt) 0
        (st.visited ++ [pt]) [pt]
      rw [htc]
      exact List.mem_append_left _ (List.mem_singleton.2 rfl)
  · intro hsmall
    simp only [runLoop, if_neg hvis,
      if_pos (by omega : ((regionQuery D eps pt).length : ℤ) < m)]

/-- Witness for C6 at a concrete instance (noise side: a single point with a
1-element neighborhood and `minPts = 2`). -/
theorem dbscan_minPts_boundary_witness :
    runLoop [("A", 1, 0)] 1 2 [("A", 1, 0)] (DBState.mk [] [] [] 0) =
      runLoop [("A", 1, 0)] 1 2 []
        (DBState.mk [] [("A", 1, 0)] [("A", 1, 0)] 0) :=
  (dbscan_minPts_boundary [("A", 1, 0)] 1 2 [] (DBState.mk [] [] [] 0)
    ("A", 1, 0) (by simp)).2 (by norm_num [regionQuery])

/-- C7: `run` terminates (it is a total function of this development, whose
inner loop is well-founded by the measure `2 * unseen + (length - cursor)`).
The visited collection only grows, never repeats a point, and is bounded by
the number of distinct point values of the dataset; the expansion worklist
only grows, only ever receives points not already present, and never exceeds
the dataset length. -/
theorem dbscan_termination_bounds (D : List Point) (eps : ℚ) (m : ℤ) (c : Nat)
    (rest : List Point) (st : DBState) (prev : List (List Point))
    (w : List Point) (i : Nat) (visited Cpts : List Point)
    (hw : List.Subperm w D) :
    (∃ tv, (runLoop D (eps * eps) m rest st).visited = st.visited ++ tv) ∧
    (∃ tw, (expandLoop D eps m prev w i visited Cpts).1 = w ++ tw) ∧
    (run D eps m c).visited.Nodup ∧
    (run D eps m c).visited.length ≤ D.dedup.length ∧
    (expandLoop D eps m prev w i visited Cpts).1.length ≤ D.length := by
  refine ⟨(runLoop_grow D (eps * eps) m rest st).2.2,
    (expandLoop_grow D eps m prev w i visited Cpts).1,
    runLoop_visited_nodup D (eps * eps) m D _ List.nodup_nil, ?_, ?_⟩
  · have hnd := runLoop_visited_nodup D (eps * eps) m D
      (DBState.mk [] [] [] c) List.nodup_nil
    have hsub := runLoop_visited_subset D (eps * eps) m D
      (DBState.mk [] [] [] c) (fun x hx => hx)
      (fun v hv => absurd hv (List.not_mem_nil v))
    have hsubd : (run D eps m c).visited ⊆ D.dedup :=
      fun v hv => List.mem_dedup.2 (hsub v hv)
    exact (hnd.subperm hsubd).length_le
  · exact (expandLoop_w_subperm D eps m prev w i visited Cpts hw).length_le

/-- Witness for C7 at a concrete instance. -/
theorem dbscan_termination_bounds_witness :
    (run [("A", (1 : ℚ), (0 : ℚ))] 1 1 0).visited.Nodup :=
  (dbscan_termination_bounds [("A", 1, 0)] 1 1 0 [] (DBState.mk [] [] [] 0)
    [] [] 0 [] [] List.nil_subperm).2.2.1

/-- C8: the visited list never contains two equal entries: both the outer
`run()` loop and the expansion loop only append a point after a
membership test, so they preserve distinctness from any intermediate state,
and the visited list of a full run is duplicate-free; hence each distinct
point value is visited (and expanded as a seed) at most once. -/
theorem dbscan_visited_distinct (D : List Point) (eps : ℚ) (m : ℤ)
    (rest : List Point) (st : DBState) (prev : List (List Point))
    (w : List Point) (i : Nat) (visited Cpts : List Point) (c : Nat)
    (hst : st.visited.Nodup) (hvd : visited.Nodup) :
    (runLoop D eps m rest st).visited.Nodup ∧
    (expandLoop D eps m prev w i visited Cpts).2.1.Nodup ∧
    (run D eps m c).visited.Nodup :=
  ⟨runLoop_visited_nodup D eps m rest st hst,
   expandLoop_visited_nodup D eps m prev w i visited Cpts hvd,
   runLoop_visited_nodup D (eps * eps) m D _ List.nodup_nil⟩

/-- Witness for C8 at a concrete instance. -/
theorem dbscan_visited_distinct_witness :
    (runLoop [("A", (1 : ℚ), (0 : ℚ))] 1 1 [("A", 1, 0)]
      (DBState.mk [] [] [] 0)).visited.Nodup :=
  (dbscan_visited_distinct [("A", 1, 0)] 1 1 [("A", 1, 0)]
    (DBState.mk [] [] [] 0) [] [] 0 [] [] 0 List.nodup_nil List.nodup_nil).1

/-- C9: the constructor squares `eps` once (`self.eps = eps*eps`) and all
comparisons use the squared value, so running with `-eps` produces exactly
the same result as running with `eps`: the sign of `eps` is unobservable. -/
theorem dbscan_neg_eps (D : List Point) (eps : ℚ) (m : ℤ) (c : Nat) :
    run D (-eps) m c = run D eps m c := by
  unfold run
  rw [neg_mul_neg]

/-- C10: when `minPts ≤ 1` (and `eps ≥ 0`), the noise list of a run is
empty: every point of the dataset belongs to its own region query (its
squared distance to itself is `0 ≤ eps²`), so no seed's neighborhood is ever
smaller than `minPts`. -/
theorem dbscan_noise_empty_of_minPts_le_one (D : List Point) (eps : ℚ)
    (m : ℤ) (c : Nat) (h0 : 0 ≤ eps) (hm : m ≤ 1) :
    (run D eps m c).NOISE = [] :=
  runLoop_noise_stays_empty D (eps * eps) m (mul_self_nonneg eps) hm D _
    (fun x hx => hx) rfl

/-- Witness for C10 at a concrete instance. -/
theorem dbscan_noise_empty_of_minPts_le_one_witness :
    (run [("A", 1, 0), ("B", 5, 5)] 1 1 0).NOISE = [] :=
  dbscan_noise_empty_of_minPts_le_one [("A", 1, 0), ("B", 5, 5)] 1 1 0
    (by norm_num) (by norm_num)

end DBSCANModel
